import Mathlib

/-!
Verification development for the DishImageFetcher repository.

The Python sources are shallowly embedded over `List Char`:
* `src/src/text_utils.py` (`normalize`, the variant imported by `src/src/routes.py`),
* `src/database.py` (`ImageCacheDB.get_image_url` / `save_image_url`),
* `src/src/routes.py` (`_fetch_image_for_keyword`, `get_multiple_images`),
* `src/src/api.py` (`get_image`),
* `src/src/image_analyser.py` (`ImageAnalyser.validate_menu_items`).

Python's Unicode data (`str.lower`, `unicodedata.normalize('NFKD', ·)`,
category `Mn`, `str.isalpha`, `str.isspace`) is modelled by finite tables and
code-point ranges covering the Basic Latin and Latin-1 letters, the combining
diacritical marks block, the CJK unified ideograph block, and — essential for
the behaviour of a second `normalize` pass — compatibility decompositions
that introduce uppercase letters from caseless symbols (`™` → `TM`,
`№` → `No`).  Outside the modelled fragment each function defaults to the
identity; this is a modelling boundary, so universally quantified theorems
are theorems about strings over this fragment.
-/

namespace Dish

/-- Model of Python `str.lower` on a single character: the ASCII letters
`A`-`Z` and the Latin-1 uppercase letters `À`-`Þ` (excluding `×`) map to their
lowercase forms; every other character is unchanged. -/
def lowerTable : List (Char × Char) :=
  [('A', 'a'), ('B', 'b'), ('C', 'c'), ('D', 'd'), ('E', 'e'), ('F', 'f'),
   ('G', 'g'), ('H', 'h'), ('I', 'i'), ('J', 'j'), ('K', 'k'), ('L', 'l'),
   ('M', 'm'), ('N', 'n'), ('O', 'o'), ('P', 'p'), ('Q', 'q'), ('R', 'r'),
   ('S', 's'), ('T', 't'), ('U', 'u'), ('V', 'v'), ('W', 'w'), ('X', 'x'),
   ('Y', 'y'), ('Z', 'z'),
   ('À', 'à'), ('Á', 'á'), ('Â', 'â'), ('Ã', 'ã'), ('Ä', 'ä'), ('Å', 'å'),
   ('Æ', 'æ'), ('Ç', 'ç'), ('È', 'è'), ('É', 'é'), ('Ê', 'ê'), ('Ë', 'ë'),
   ('Ì', 'ì'), ('Í', 'í'), ('Î', 'î'), ('Ï', 'ï'), ('Ð', 'ð'), ('Ñ', 'ñ'),
   ('Ò', 'ò'), ('Ó', 'ó'), ('Ô', 'ô'), ('Õ', 'õ'), ('Ö', 'ö'), ('Ø', 'ø'),
   ('Ù', 'ù'), ('Ú', 'ú'), ('Û', 'û'), ('Ü', 'ü'), ('Ý', 'ý'), ('Þ', 'þ')]

def toLowerChar (c : Char) : Char :=
  match lowerTable.find? (fun p => p.1 == c) with
  | some p => p.2
  | none => c

/-- Python `str.lower` applied character by character. -/
def pyLower (s : List Char) : List Char := s.map toLowerChar

/-- Decomposition table for `unicodedata.normalize('NFKD', ·)`: the canonical
decompositions of the precomposed Latin-1 letters, plus compatibility
decompositions of caseless symbols that emit uppercase letters (`™` → `TM`,
`№` → `No`) — the case that makes `normalize` non-idempotent, since
lower-casing runs before decomposition.  `ß`, `æ`, `ð`, `ø`, `þ` have no
decomposition and are absent. -/
def nfkdTable : List (Char × List Char) :=
  [('à', ['a', '̀']), ('á', ['a', '́']), ('â', ['a', '̂']),
   ('ã', ['a', '̃']), ('ä', ['a', '̈']), ('å', ['a', '̊']),
   ('ç', ['c', '̧']), ('è', ['e', '̀']), ('é', ['e', '́']),
   ('ê', ['e', '̂']), ('ë', ['e', '̈']), ('ì', ['i', '̀']),
   ('í', ['i', '́']), ('î', ['i', '̂']), ('ï', ['i', '̈']),
   ('ñ', ['n', '̃']), ('ò', ['o', '̀']), ('ó', ['o', '́']),
   ('ô', ['o', '̂']), ('õ', ['o', '̃']), ('ö', ['o', '̈']),
   ('ù', ['u', '̀']), ('ú', ['u', '́']), ('û', ['u', '̂']),
   ('ü', ['u', '̈']), ('ý', ['y', '́']), ('ÿ', ['y', '̈']),
   ('À', ['A', '̀']), ('Á', ['A', '́']), ('Â', ['A', '̂']),
   ('Ã', ['A', '̃']), ('Ä', ['A', '̈']), ('Å', ['A', '̊']),
   ('Ç', ['C', '̧']), ('È', ['E', '̀']), ('É', ['E', '́']),
   ('Ê', ['E', '̂']), ('Ë', ['E', '̈']), ('Ì', ['I', '̀']),
   ('Í', ['I', '́']), ('Î', ['I', '̂']), ('Ï', ['I', '̈']),
   ('Ñ', ['N', '̃']), ('Ò', ['O', '̀']), ('Ó', ['O', '́']),
   ('Ô', ['O', '̂']), ('Õ', ['O', '̃']), ('Ö', ['O', '̈']),
   ('Ù', ['U', '̀']), ('Ú', ['U', '́']), ('Û', ['U', '̂']),
   ('Ü', ['U', '̈']), ('Ý', ['Y', '́']),
   ('™', ['T', 'M']), ('№', ['N', 'o'])]

def nfkdChar (c : Char) : List Char :=
  match nfkdTable.find? (fun p => p.1 == c) with
  | some p => p.2
  | none => [c]

/-- `unicodedata.normalize('NFKD', s)` on the modelled fragment. -/
def nfkd (s : List Char) : List Char := (s.map nfkdChar).flatten

/-- Unicode category `Mn` (nonspacing combining mark), modelled as the
Combining Diacritical Marks block U+0300 - U+036F. -/
def isMn (c : Char) : Bool := decide (0x300 ≤ c.toNat ∧ c.toNat ≤ 0x36F)

/-- Python `str.isalpha` on the modelled fragment: ASCII letters, Latin-1
letters (excluding `×` and `÷`), Latin Extended-A, and CJK unified
ideographs. -/
def isAlphaChar (c : Char) : Bool :=
  decide ((65 ≤ c.toNat ∧ c.toNat ≤ 90) ∨ (97 ≤ c.toNat ∧ c.toNat ≤ 122) ∨
    (0xC0 ≤ c.toNat ∧ c.toNat ≤ 0xFF ∧ c.toNat ≠ 0xD7 ∧ c.toNat ≠ 0xF7) ∨
    (0x100 ≤ c.toNat ∧ c.toNat ≤ 0x17F) ∨
    (0x4E00 ≤ c.toNat ∧ c.toNat ≤ 0x9FFF))

/-- Python `str.isspace` / regex `\s` on the modelled fragment. -/
def isSpaceChar (c : Char) : Bool :=
  c == ' ' || c == '\t' || c == '\n' || c == '\x0b' || c == '\x0c' || c == '\r'

/-- Unicode category `Ll` (lowercase letter) on the modelled fragment; used to
state the spec's phrase "lowercase letters".  CJK ideographs are letters but
not lowercase letters. -/
def isLowercaseLetter (c : Char) : Bool :=
  decide ((97 ≤ c.toNat ∧ c.toNat ≤ 122) ∨
    (0xDF ≤ c.toNat ∧ c.toNat ≤ 0xFF ∧ c.toNat ≠ 0xF7))

/-- Python `str.replace(orig, repl)` for a single-character pattern. -/
def replaceOne (orig : Char) (repl : List Char) : List Char → List Char
  | [] => []
  | c :: rest =>
    if c = orig then repl ++ replaceOne orig repl rest
    else c :: replaceOne orig repl rest

/-- The `replacements` loop of `text_utils.normalize`, applied in the
dictionary's insertion order `ä`, `ö`, `ü`, `ß`. -/
def replaceUmlauts (s : List Char) : List Char :=
  replaceOne 'ß' ['s', 's']
    (replaceOne 'ü' ['u', 'e']
      (replaceOne 'ö' ['o', 'e']
        (replaceOne 'ä' ['a', 'e'] s)))

/-- `re.sub(r'\s+', ' ', s)`: the state records whether the previous character
was whitespace (in which case further whitespace is dropped). -/
def squeezeAux : Bool → List Char → List Char
  | _, [] => []
  | prevSpace, c :: rest =>
    if isSpaceChar c then
      if prevSpace then squeezeAux true rest
      else ' ' :: squeezeAux true rest
    else c :: squeezeAux false rest

def squeeze (s : List Char) : List Char := squeezeAux false s

/-- Python `str.strip()`: drop leading and trailing whitespace. -/
def pyStrip (s : List Char) : List Char :=
  (((s.dropWhile isSpaceChar).reverse.dropWhile isSpaceChar)).reverse

/-- `normalize` from `src/src/text_utils.py` (the variant imported by
`src/src/routes.py`): lower-case, replace the four German special characters,
NFKD-decompose, strip combining marks, keep only letters and whitespace,
collapse whitespace runs and strip. -/
def normalize (s : List Char) : List Char :=
  let k1 := pyLower s
  let k2 := replaceUmlauts k1
  let k3 := nfkd k2
  let k4 := k3.filter (fun c => !(isMn c))
  let k5 := k4.filter (fun c => isAlphaChar c || isSpaceChar c)
  pyStrip (squeeze k5)

/-- Modelled from the spec: the same six steps, composed in the order the spec
prescribes (decompose, strip marks, lower-case, substitution table, letter
filter, whitespace collapse).  Used only to compare against `normalize`. -/
def specOrderNormalize (s : List Char) : List Char :=
  let k1 := nfkd s
  let k2 := k1.filter (fun c => !(isMn c))
  let k3 := pyLower k2
  let k4 := replaceUmlauts k3
  let k5 := k4.filter (fun c => isAlphaChar c || isSpaceChar c)
  pyStrip (squeeze k5)

example : normalize "Müller".data = "mueller".data := by decide
example : normalize "café".data = "cafe".data := by decide
example : normalize "  Tom  Kha   Gai ".data = "tom kha gai".data := by decide
example : normalize "Ä".data = "ae".data := by decide
example : specOrderNormalize "Ä".data = "a".data := by decide
example : normalize "寿司".data = "寿司".data := by decide
example : normalize "™".data = "TM".data := by decide
example : normalize (normalize "™".data) = "tm".data := by decide

/-! ### Character-level facts about the tables -/

/-- `c` is none of the four characters replaced by the substitution table. -/
abbrev notUml (c : Char) : Prop := c ≠ 'ä' ∧ c ≠ 'ö' ∧ c ≠ 'ü' ∧ c ≠ 'ß'

theorem toLowerChar_spec (c : Char) :
    toLowerChar c = c ∨ ∃ p ∈ lowerTable, toLowerChar c = p.2 := by
  unfold toLowerChar
  split
  · next p h => exact Or.inr ⟨p, List.mem_of_find?_eq_some h, rfl⟩
  · next h => exact Or.inl rfl

theorem nfkdChar_spec (c : Char) :
    nfkdChar c = [c] ∨ ∃ p ∈ nfkdTable, p.1 = c ∧ nfkdChar c = p.2 := by
  unfold nfkdChar
  split
  · next p h =>
    refine Or.inr ⟨p, List.mem_of_find?_eq_some h, ?_, rfl⟩
    have := List.find?_some h
    simpa using this
  · next h => exact Or.inl rfl

theorem lowerTable_snd_fixed : ∀ p ∈ lowerTable, toLowerChar p.2 = p.2 := by decide

theorem toLowerChar_idem (c : Char) : toLowerChar (toLowerChar c) = toLowerChar c := by
  rcases toLowerChar_spec c with h | ⟨p, hp, h⟩
  · rw [h, h]
  · rw [h]; exact lowerTable_snd_fixed p hp

theorem nfkdTable_notUml : ∀ p ∈ nfkdTable, ∀ d ∈ p.2, notUml d := by decide

theorem nfkdTable_flat : ∀ p ∈ nfkdTable, ∀ d ∈ p.2, nfkdChar d = [d] := by decide

/-- Pointwise facts about the lower-casing table: every value is a
non-combining, non-space letter, keys are not spaces either, and whenever a
key has no decomposition its lower-case form has none and is no substitution
character (the decomposable keys `Ä`, `Ö`, `Ü`, ... make the implication
vacuous). -/
theorem lowerTable_props : ∀ p ∈ lowerTable,
    isAlphaChar p.2 = true ∧ isMn p.2 = false ∧
    isSpaceChar p.1 = false ∧ isSpaceChar p.2 = false ∧
    p.1 ≠ ' ' ∧ p.2 ≠ ' ' ∧
    (nfkdChar p.1 = [p.1] → nfkdChar p.2 = [p.2] ∧ notUml p.2) := by decide

theorem toLowerChar_space (c : Char) : toLowerChar c = ' ' ↔ c = ' ' := by
  unfold toLowerChar
  split
  · next p hp =>
    have hprops := lowerTable_props p (List.mem_of_find?_eq_some hp)
    have hkey : p.1 = c := by simpa using List.find?_some hp
    constructor
    · intro h2
      exact absurd h2 hprops.2.2.2.2.2.1
    · intro hc
      rw [hc] at hkey
      exact absurd hkey hprops.2.2.2.2.1
  · next h => exact Iff.rfl

theorem toLowerChar_isSpace (c : Char) :
    isSpaceChar (toLowerChar c) = isSpaceChar c := by
  unfold toLowerChar
  split
  · next p hp =>
    have hprops := lowerTable_props p (List.mem_of_find?_eq_some hp)
    have hkey : p.1 = c := by simpa using List.find?_some hp
    rw [hprops.2.2.2.1, ← hkey, hprops.2.2.1]
  · next h => rfl

/-- Lower-casing preserves every invariant a normalized key's characters
enjoy: no decomposition, no substitution character, no combining mark, and
letter-or-space. -/
theorem toLowerChar_key_pres {c : Char} (hn : nfkdChar c = [c])
    (hu : notUml c) (hm : isMn c = false)
    (ha : isAlphaChar c = true ∨ c = ' ') :
    nfkdChar (toLowerChar c) = [toLowerChar c] ∧ notUml (toLowerChar c) ∧
    isMn (toLowerChar c) = false ∧
    (isAlphaChar (toLowerChar c) = true ∨ toLowerChar c = ' ') := by
  unfold toLowerChar
  split
  · next p hp =>
    have hprops := lowerTable_props p (List.mem_of_find?_eq_some hp)
    have hkey : p.1 = c := by simpa using List.find?_some hp
    rw [← hkey] at hn
    rcases hprops.2.2.2.2.2.2 hn with ⟨hflat, huml⟩
    exact ⟨hflat, huml, hprops.2.1, Or.inl hprops.1⟩
  · next h => exact ⟨hn, hu, hm, ha⟩

/-! ### Membership propagation through the `normalize` pipeline -/

theorem mem_pyLower {s : List Char} {c : Char} (h : c ∈ pyLower s) :
    toLowerChar c = c := by
  rcases List.mem_map.mp h with ⟨d, _, rfl⟩
  exact toLowerChar_idem d

theorem mem_replaceOne {o : Char} {r l : List Char} {c : Char}
    (h : c ∈ replaceOne o r l) : c ∈ r ∨ (c ∈ l ∧ c ≠ o) := by
  induction l with
  | nil => simp [replaceOne] at h
  | cons a rest ih =>
    by_cases ha : a = o
    · rw [replaceOne, if_pos ha] at h
      rcases List.mem_append.mp h with h' | h'
      · exact Or.inl h'
      · rcases ih h' with h'' | ⟨h1, h2⟩
        · exact Or.inl h''
        · exact Or.inr ⟨List.mem_cons_of_mem a h1, h2⟩
    · rw [replaceOne, if_neg ha] at h
      rcases List.mem_cons.mp h with rfl | h'
      · exact Or.inr ⟨List.mem_cons_self c rest, fun hc => ha hc⟩
      · rcases ih h' with h'' | ⟨h1, h2⟩
        · exact Or.inl h''
        · exact Or.inr ⟨List.mem_cons_of_mem a h1, h2⟩

theorem mem_replaceUmlauts {l : List Char} {c : Char}
    (h : c ∈ replaceUmlauts l) : notUml c := by
  unfold replaceUmlauts at h
  rcases mem_replaceOne h with h1 | ⟨h, hss⟩
  · fin_cases h1 <;> decide
  rcases mem_replaceOne h with h1 | ⟨h, hue⟩
  · fin_cases h1 <;> decide
  rcases mem_replaceOne h with h1 | ⟨h, hoe⟩
  · fin_cases h1 <;> decide
  rcases mem_replaceOne h with h1 | ⟨h, hae⟩
  · fin_cases h1 <;> decide
  · exact ⟨hae, hoe, hue, hss⟩

theorem mem_nfkd {l : List Char} {c : Char}
    (hl : ∀ d ∈ l, notUml d) (h : c ∈ nfkd l) :
    notUml c ∧ nfkdChar c = [c] := by
  rcases List.mem_flatten.mp h with ⟨u, hu, hcu⟩
  rcases List.mem_map.mp hu with ⟨d, hd, rfl⟩
  rcases nfkdChar_spec d with hflat | ⟨p, hp, hp1, hpe⟩
  · rw [hflat] at hcu
    rcases List.mem_singleton.mp hcu with rfl
    exact ⟨hl c hd, hflat⟩
  · rw [hpe] at hcu
    exact ⟨nfkdTable_notUml p hp c hcu, nfkdTable_flat p hp c hcu⟩

theorem mem_squeezeAux {b : Bool} {l : List Char} {c : Char}
    (h : c ∈ squeezeAux b l) : c = ' ' ∨ (c ∈ l ∧ isSpaceChar c = false) := by
  induction l generalizing b with
  | nil => simp [squeezeAux] at h
  | cons a rest ih =>
    rw [squeezeAux] at h
    by_cases ha : isSpaceChar a
    · rw [if_pos ha] at h
      by_cases hb : b
      · rw [if_pos hb] at h
        rcases ih h with h' | ⟨h1, h2⟩
        · exact Or.inl h'
        · exact Or.inr ⟨List.mem_cons_of_mem a h1, h2⟩
      · rw [if_neg hb] at h
        rcases List.mem_cons.mp h with rfl | h'
        · exact Or.inl rfl
        · rcases ih h' with h'' | ⟨h1, h2⟩
          · exact Or.inl h''
          · exact Or.inr ⟨List.mem_cons_of_mem a h1, h2⟩
    · rw [if_neg ha] at h
      rcases List.mem_cons.mp h with rfl | h'
      · exact Or.inr ⟨List.mem_cons_self c rest, by simpa using ha⟩
      · rcases ih h' with h'' | ⟨h1, h2⟩
        · exact Or.inl h''
        · exact Or.inr ⟨List.mem_cons_of_mem a h1, h2⟩

theorem mem_pyStrip {l : List Char} {c : Char} (h : c ∈ pyStrip l) : c ∈ l := by
  unfold pyStrip at h
  rw [List.mem_reverse] at h
  have h1 := (List.dropWhile_sublist (l := (l.dropWhile isSpaceChar).reverse)
    (p := isSpaceChar)).subset h
  rw [List.mem_reverse] at h1
  exact (List.dropWhile_sublist (l := l) (p := isSpaceChar)).subset h1

/-- Every character of a normalized key is no substitution character, has no
further decomposition, is not a combining mark, and is a letter or the space
character.  (It is NOT necessarily fixed by lower-casing: compatibility
decompositions such as `™` → `TM` run after `str.lower` and can emit
uppercase letters.) -/
theorem mem_normalize {s : List Char} {c : Char} (h : c ∈ normalize s) :
    notUml c ∧ nfkdChar c = [c] ∧ isMn c = false ∧
    (isSpaceChar c = true → c = ' ') ∧ (isAlphaChar c = true ∨ c = ' ') := by
  unfold normalize at h
  have h0 := mem_pyStrip h
  rcases mem_squeezeAux h0 with rfl | ⟨h1, hns⟩
  · exact ⟨by decide, by decide, by decide, fun _ => rfl, Or.inr rfl⟩
  · rcases List.mem_filter.mp h1 with ⟨h2, halpha⟩
    rcases List.mem_filter.mp h2 with ⟨h3, hmn⟩
    have h4 := mem_nfkd (fun d hd => mem_replaceUmlauts hd) h3
    refine ⟨h4.1, h4.2, by simpa using hmn, fun hsp => absurd hsp (by simp [hns]), ?_⟩
    rcases Bool.or_eq_true_iff.mp halpha with ha | hsp
    · exact Or.inl ha
    · exact absurd hsp (by simp [hns])

/-! ### Whitespace structure of normalized keys -/

/-- No two adjacent characters are both the space character. -/
def noDoubleSpace : List Char → Bool
  | c1 :: c2 :: rest => !(c1 == ' ' && c2 == ' ') && noDoubleSpace (c2 :: rest)
  | _ => true

theorem noDoubleSpace_tail {a : Char} {l : List Char}
    (h : noDoubleSpace (a :: l) = true) : noDoubleSpace l = true := by
  cases l with
  | nil => rfl
  | cons b t =>
    simp only [noDoubleSpace, Bool.and_eq_true] at h
    exact h.2

theorem noDoubleSpace_cons {x : Char} {l : List Char}
    (h1 : ∀ c, l.head? = some c → x = ' ' → c ≠ ' ')
    (h2 : noDoubleSpace l = true) : noDoubleSpace (x :: l) = true := by
  cases l with
  | nil => rfl
  | cons b t =>
    simp only [noDoubleSpace, Bool.and_eq_true]
    refine ⟨?_, h2⟩
    by_cases hx : x = ' '
    · have := h1 b rfl hx
      simp [hx, this]
    · simp [hx]

theorem squeezeAux_true_head {l : List Char} {c : Char}
    (h : (squeezeAux true l).head? = some c) : isSpaceChar c = false := by
  induction l with
  | nil => simp [squeezeAux] at h
  | cons a rest ih =>
    rw [squeezeAux] at h
    by_cases ha : isSpaceChar a
    · rw [if_pos ha, if_pos rfl] at h; exact ih h
    · rw [if_neg ha] at h
      simp only [List.head?_cons, Option.some.injEq] at h
      subst h
      simpa using ha

theorem noDoubleSpace_squeezeAux (b : Bool) (l : List Char) :
    noDoubleSpace (squeezeAux b l) = true := by
  induction l generalizing b with
  | nil => rfl
  | cons a rest ih =>
    rw [squeezeAux]
    by_cases ha : isSpaceChar a
    · rw [if_pos ha]
      by_cases hb : b = true
      · rw [if_pos hb]; exact ih true
      · rw [if_neg hb]
        refine noDoubleSpace_cons (fun c hc _ hceq => ?_) (ih true)
        have := squeezeAux_true_head hc
        rw [hceq] at this
        simp [isSpaceChar] at this
    · rw [if_neg ha]
      refine noDoubleSpace_cons (fun c _ hx _ => ?_) (ih false)
      rw [hx] at ha
      simp [isSpaceChar] at ha

theorem noDoubleSpace_iff_chain {l : List Char} :
    noDoubleSpace l = true ↔ l.Chain' (fun a b => ¬(a = ' ' ∧ b = ' ')) := by
  induction l with
  | nil => simp [noDoubleSpace]
  | cons a rest ih =>
    cases rest with
    | nil => simp [noDoubleSpace]
    | cons b t =>
      rw [List.chain'_cons, ← ih]
      simp only [noDoubleSpace, Bool.and_eq_true, Bool.not_eq_true',
        Bool.and_eq_false_imp, beq_iff_eq, beq_eq_false_iff_ne, ne_eq]
      constructor
      · rintro ⟨h1, h2⟩
        exact ⟨fun ⟨hx, hy⟩ => h1 hx hy, h2⟩
      · rintro ⟨h1, h2⟩
        exact ⟨fun hx hy => h1 ⟨hx, hy⟩, h2⟩

theorem noDoubleSpace_pyStrip {l : List Char}
    (h : noDoubleSpace l = true) : noDoubleSpace (pyStrip l) = true := by
  rw [noDoubleSpace_iff_chain] at h ⊢
  unfold pyStrip
  have comm : ∀ a b : Char, ¬(a = ' ' ∧ b = ' ') → ¬(b = ' ' ∧ a = ' ') :=
    fun a b hab ⟨h1, h2⟩ => hab ⟨h2, h1⟩
  have h1 := h.suffix (List.dropWhile_suffix (l := l) isSpaceChar)
  have h2 := List.chain'_reverse.mpr (h1.imp comm)
  have h3 := h2.suffix (List.dropWhile_suffix isSpaceChar)
  exact List.chain'_reverse.mpr (h3.imp comm)

theorem dropWhile_head_not {p : Char → Bool} {l : List Char} {c : Char}
    (h : (l.dropWhile p).head? = some c) : p c = false := by
  induction l with
  | nil => simp at h
  | cons a rest ih =>
    by_cases hp : p a
    · rw [List.dropWhile_cons_of_pos hp] at h; exact ih h
    · rw [List.dropWhile_cons_of_neg hp] at h
      simp only [List.head?_cons, Option.some.injEq] at h
      subst h
      simpa using hp

theorem pyStrip_head_not {l : List Char} {c : Char}
    (h : (pyStrip l).head? = some c) : isSpaceChar c = false := by
  unfold pyStrip at h
  have hpre : ((l.dropWhile isSpaceChar).reverse.dropWhile isSpaceChar).reverse <+:
      l.dropWhile isSpaceChar := by
    rw [← List.reverse_suffix]
    simpa using List.dropWhile_suffix (l := (l.dropWhile isSpaceChar).reverse) isSpaceChar
  rcases hpre with ⟨t, ht⟩
  cases hX : ((l.dropWhile isSpaceChar).reverse.dropWhile isSpaceChar).reverse with
  | nil => rw [hX] at h; simp at h
  | cons a r =>
    rw [hX] at h ht
    simp only [List.head?_cons, Option.some.injEq] at h
    subst h
    have : (l.dropWhile isSpaceChar).head? = some a := by rw [← ht]; rfl
    exact dropWhile_head_not this

theorem pyStrip_getLast_not {l : List Char} {c : Char}
    (h : (pyStrip l).getLast? = some c) : isSpaceChar c = false := by
  unfold pyStrip at h
  rw [List.getLast?_reverse] at h
  exact dropWhile_head_not h

theorem normalize_head_not_space (s : List Char) :
    (normalize s).head? ≠ some ' ' := by
  intro h
  have := pyStrip_head_not (show (pyStrip (squeeze (((nfkd (replaceUmlauts
    (pyLower s))).filter (fun c => !(isMn c))).filter
    (fun c => isAlphaChar c || isSpaceChar c)))).head? = some ' ' from h)
  simp [isSpaceChar] at this

theorem normalize_getLast_not_space (s : List Char) :
    (normalize s).getLast? ≠ some ' ' := by
  intro h
  have := pyStrip_getLast_not (show (pyStrip (squeeze (((nfkd (replaceUmlauts
    (pyLower s))).filter (fun c => !(isMn c))).filter
    (fun c => isAlphaChar c || isSpaceChar c)))).getLast? = some ' ' from h)
  simp [isSpaceChar] at this

theorem normalize_noDoubleSpace (s : List Char) :
    noDoubleSpace (normalize s) = true := by
  exact noDoubleSpace_pyStrip (noDoubleSpace_squeezeAux false _)

/-! ### Each pipeline stage is the identity on normalized output -/

theorem map_id_of_mem {f : Char → Char} {l : List Char}
    (h : ∀ c ∈ l, f c = c) : l.map f = l := by
  induction l with
  | nil => rfl
  | cons a rest ih =>
    rw [List.map_cons, h a (List.mem_cons_self a rest),
      ih (fun c hc => h c (List.mem_cons_of_mem a hc))]

theorem replaceOne_eq_self {o : Char} {r l : List Char}
    (h : o ∉ l) : replaceOne o r l = l := by
  induction l with
  | nil => rfl
  | cons a rest ih =>
    rw [replaceOne, if_neg (show ¬ a = o from fun hao =>
        h (by rw [← hao]; exact List.mem_cons_self a rest)),
      ih (fun hr => h (List.mem_cons_of_mem a hr))]

theorem flatten_map_eq_self {f : Char → List Char} {l : List Char}
    (h : ∀ c ∈ l, f c = [c]) : (l.map f).flatten = l := by
  induction l with
  | nil => rfl
  | cons a rest ih =>
    rw [List.map_cons, List.flatten_cons, h a (List.mem_cons_self a rest),
      ih (fun c hc => h c (List.mem_cons_of_mem a hc))]
    rfl

theorem squeezeAux_eq_self {b : Bool} {l : List Char}
    (hsp : ∀ c ∈ l, isSpaceChar c = true → c = ' ')
    (hnd : noDoubleSpace l = true)
    (hb : b = true → l.head? ≠ some ' ') : squeezeAux b l = l := by
  induction l generalizing b with
  | nil => rfl
  | cons a rest ih =>
    by_cases ha : isSpaceChar a = true
    · have ha' : a = ' ' := hsp a (List.mem_cons_self a rest) ha
      subst ha'
      cases b with
      | true => exact absurd rfl (hb rfl)
      | false =>
        rw [squeezeAux, if_pos ha, if_neg (by simp)]
        congr 1
        refine ih (fun c hc h => hsp c (List.mem_cons_of_mem _ hc) h)
          (noDoubleSpace_tail hnd) (fun _ hh => ?_)
        cases rest with
        | nil => simp at hh
        | cons b2 t =>
          simp only [List.head?_cons, Option.some.injEq] at hh
          rw [hh] at hnd
          simp [noDoubleSpace] at hnd
    · rw [squeezeAux, if_neg ha]
      congr 1
      exact ih (fun c hc h => hsp c (List.mem_cons_of_mem _ hc) h)
        (noDoubleSpace_tail hnd) (fun hfalse => absurd hfalse (by simp))

theorem dropWhile_space_eq_self {l : List Char} (h1 : l.head? ≠ some ' ')
    (h2 : ∀ c ∈ l, isSpaceChar c = true → c = ' ') :
    l.dropWhile isSpaceChar = l := by
  cases l with
  | nil => rfl
  | cons a rest =>
    have ha : ¬ isSpaceChar a = true := by
      intro hc
      exact h1 (by rw [h2 a (List.mem_cons_self a rest) hc]; rfl)
    rw [List.dropWhile_cons_of_neg ha]

theorem pyStrip_eq_self {l : List Char} (h1 : l.head? ≠ some ' ')
    (h2 : l.getLast? ≠ some ' ')
    (h3 : ∀ c ∈ l, isSpaceChar c = true → c = ' ') : pyStrip l = l := by
  unfold pyStrip
  rw [dropWhile_space_eq_self h1 h3,
    dropWhile_space_eq_self (by rw [List.head?_reverse]; exact h2)
      (fun c hc => h3 c (List.mem_reverse.mp hc)),
    List.reverse_reverse]

/-! ### A second `normalize` pass is exactly a lower-casing

`normalize` is NOT idempotent: lower-casing runs before NFKD, and
compatibility decompositions such as `™` → `TM` emit uppercase letters that
only a second pass lower-cases (`normalize "™" = "TM"`,
`normalize "TM" = "tm"`).  The second pass changes nothing else, so
`normalize ∘ normalize = pyLower ∘ normalize`, and two passes reach a fixed
point. -/

theorem pyLower_mem_facts {s : List Char} {c : Char}
    (h : c ∈ pyLower (normalize s)) :
    nfkdChar c = [c] ∧ notUml c ∧ isMn c = false ∧
    (isAlphaChar c = true ∨ c = ' ') ∧ (isSpaceChar c = true → c = ' ') := by
  rcases List.mem_map.mp h with ⟨d, hd, rfl⟩
  have hf := mem_normalize hd
  have hp := toLowerChar_key_pres hf.2.1 hf.1 hf.2.2.1 hf.2.2.2.2
  refine ⟨hp.1, hp.2.1, hp.2.2.1, hp.2.2.2, ?_⟩
  intro hsp
  rw [toLowerChar_isSpace d] at hsp
  rw [hf.2.2.2.1 hsp]
  decide

theorem noDoubleSpace_map_toLower {l : List Char}
    (h : noDoubleSpace l = true) :
    noDoubleSpace (l.map toLowerChar) = true := by
  rw [noDoubleSpace_iff_chain] at h ⊢
  rw [List.chain'_map]
  refine h.imp (fun a b hab hcon => hab ?_)
  exact ⟨(toLowerChar_space a).mp hcon.1, (toLowerChar_space b).mp hcon.2⟩

theorem pyLower_head_not_space {l : List Char} (h : l.head? ≠ some ' ') :
    (pyLower l).head? ≠ some ' ' := by
  intro hcon
  rw [pyLower, List.head?_map] at hcon
  cases hg : l.head? with
  | none => rw [hg] at hcon; simp at hcon
  | some a =>
    rw [hg] at hcon
    have ha : toLowerChar a = ' ' := by simpa using hcon
    apply h
    rw [hg, (toLowerChar_space a).mp ha]

theorem pyLower_getLast_not_space {l : List Char} (h : l.getLast? ≠ some ' ') :
    (pyLower l).getLast? ≠ some ' ' := by
  intro hcon
  rw [pyLower, List.getLast?_map] at hcon
  cases hg : l.getLast? with
  | none => rw [hg] at hcon; simp at hcon
  | some a =>
    rw [hg] at hcon
    have ha : toLowerChar a = ' ' := by simpa using hcon
    apply h
    rw [hg, (toLowerChar_space a).mp ha]

theorem pyLower_idem (l : List Char) : pyLower (pyLower l) = pyLower l :=
  map_id_of_mem (fun _ hc => mem_pyLower hc)

/-- A second application of `normalize` is exactly a lower-casing of the
first result. -/
theorem normalize_normalize (s : List Char) :
    normalize (normalize s) = pyLower (normalize s) := by
  have h2 : replaceUmlauts (pyLower (normalize s)) = pyLower (normalize s) := by
    unfold replaceUmlauts
    rw [replaceOne_eq_self (fun hm => (pyLower_mem_facts hm).2.1.1 rfl),
      replaceOne_eq_self (fun hm => (pyLower_mem_facts hm).2.1.2.1 rfl),
      replaceOne_eq_self (fun hm => (pyLower_mem_facts hm).2.1.2.2.1 rfl),
      replaceOne_eq_self (fun hm => (pyLower_mem_facts hm).2.1.2.2.2 rfl)]
  have h3 : nfkd (pyLower (normalize s)) = pyLower (normalize s) :=
    flatten_map_eq_self (fun c hc => (pyLower_mem_facts hc).1)
  have h4 : (pyLower (normalize s)).filter (fun c => !(isMn c)) =
      pyLower (normalize s) :=
    List.filter_eq_self.mpr (fun c hc => by
      rw [(pyLower_mem_facts hc).2.2.1]; rfl)
  have h5 : (pyLower (normalize s)).filter
      (fun c => isAlphaChar c || isSpaceChar c) = pyLower (normalize s) :=
    List.filter_eq_self.mpr (fun c hc => by
      rcases (pyLower_mem_facts hc).2.2.2.1 with ha | hsp
      · simp [ha]
      · rw [hsp]; decide)
  have hspaces : ∀ c ∈ pyLower (normalize s), isSpaceChar c = true → c = ' ' :=
    fun c hc => (pyLower_mem_facts hc).2.2.2.2
  have hnd : noDoubleSpace (pyLower (normalize s)) = true :=
    noDoubleSpace_map_toLower (normalize_noDoubleSpace s)
  have hhead : (pyLower (normalize s)).head? ≠ some ' ' :=
    pyLower_head_not_space (normalize_head_not_space s)
  have hlast : (pyLower (normalize s)).getLast? ≠ some ' ' :=
    pyLower_getLast_not_space (normalize_getLast_not_space s)
  have h6 : squeeze (pyLower (normalize s)) = pyLower (normalize s) :=
    squeezeAux_eq_self hspaces hnd (fun _ => hhead)
  have h7 : pyStrip (pyLower (normalize s)) = pyLower (normalize s) :=
    pyStrip_eq_self hhead hlast hspaces
  show pyStrip (squeeze (((nfkd (replaceUmlauts (pyLower
    (normalize s)))).filter (fun c => !(isMn c))).filter
    (fun c => isAlphaChar c || isSpaceChar c))) = pyLower (normalize s)
  rw [h2, h3, h4, h5]
  show pyStrip (squeeze (pyLower (normalize s))) = pyLower (normalize s)
  rw [h6, h7]

/-- Two applications of `normalize` reach a fixed point. -/
theorem normalize_third (s : List Char) :
    normalize (normalize (normalize s)) = normalize (normalize s) := by
  rw [normalize_normalize (normalize s), normalize_normalize s, pyLower_idem]

/-! ### Shape of normalized keys -/

/-- The actual shape of a normalized key: every character is a letter
(possibly caseless such as CJK, possibly uppercase emitted by a compatibility
decomposition such as `™` → `TM`) or the space character; no leading space,
no trailing space, no doubled space. -/
def isCleanKey (l : List Char) : Bool :=
  l.all (fun c => isAlphaChar c || c == ' ') &&
  !(l.head? == some ' ') && !(l.getLast? == some ' ') && noDoubleSpace l

/-- Modelled from the spec: the spec's phrase "only lowercase letters and
single spaces" read with "lowercase letter" as Unicode category `Ll`. -/
def specCleanKey (l : List Char) : Bool :=
  l.all (fun c => isLowercaseLetter c || c == ' ') &&
  !(l.head? == some ' ') && !(l.getLast? == some ' ') && noDoubleSpace l

theorem normalize_isCleanKey (s : List Char) :
    isCleanKey (normalize s) = true := by
  unfold isCleanKey
  simp only [Bool.and_eq_true, List.all_eq_true, Bool.not_eq_true',
    beq_eq_false_iff_ne, ne_eq]
  refine ⟨⟨⟨fun c hc => ?_, normalize_head_not_space s⟩,
    normalize_getLast_not_space s⟩, normalize_noDoubleSpace s⟩
  rcases (mem_normalize hc).2.2.2.2 with ha | hsp
  · simp [ha]
  · simp [hsp]

/-! ### Cache store (`src/database.py`, class `ImageCacheDB`)

The SQLite table `image_cache (keyword UNIQUE, image_url, created_at)` is
modelled as an association list keyed by the (defensively lower-cased)
keyword.  Storage faults (`sqlite3.Error`) are outside the model. -/

structure CacheState where
  entries : List (List Char × List Char)

/-- `ImageCacheDB.get_image_url`: returns `None` for an empty keyword,
otherwise looks the lower-cased keyword up. -/
def dbGet (st : CacheState) (keyword : List Char) : Option (List Char) :=
  if keyword = [] then none
  else (st.entries.find? (fun p => p.1 == pyLower keyword)).map (fun p => p.2)

/-- `ImageCacheDB.save_image_url`: rejects an empty keyword or URL, otherwise
`INSERT OR REPLACE` under the lower-cased keyword.  Returns the success flag
and the new state. -/
def dbSave (st : CacheState) (keyword url : List Char) : Bool × CacheState :=
  if keyword = [] ∨ url = [] then (false, st)
  else (true, ⟨(pyLower keyword, url) ::
    st.entries.eraseP (fun p => p.1 == pyLower keyword)⟩)

/-! ### Image resolver (`src/src/routes.py`, `_fetch_image_for_keyword`)

The external collaborator `ImageFetcher.fetch_image_url` is a parameter
`fetch`; it already catches its own exceptions and returns `None` on any
failure, hence `Option`.  The trace records the response, the cache state,
and how often the fetcher and the cache were consulted. -/

structure ImageResponse where
  keyword : List Char
  imageUrl : Option (List Char)

structure ResolveTrace where
  response : ImageResponse
  state : CacheState
  fetchCalls : Nat
  cacheReads : Nat
  writes : List (List Char × List Char)

/-- The cache-miss branch of `_fetch_image_for_keyword`: fetch, and on a
truthy URL attempt to save it (a failed save is only logged). -/
def resolveMiss (fetch : List Char → Option (List Char)) (st : CacheState)
    (normalized : List Char) : ResolveTrace :=
  match fetch normalized with
  | some url =>
    if url ≠ [] then
      ⟨⟨normalized, some url⟩, (dbSave st normalized url).2, 1, 1,
        [(normalized, url)]⟩
    else ⟨⟨normalized, some url⟩, st, 1, 1, []⟩
  | none => ⟨⟨normalized, none⟩, st, 1, 1, []⟩

/-- The validity gate of `_fetch_image_for_keyword`:
`normalized and len(normalized) >= 2 and len(normalized) <= 100`. -/
abbrev validNorm (k : List Char) : Prop :=
  k ≠ [] ∧ 2 ≤ k.length ∧ k.length ≤ 100

/-- `_fetch_image_for_keyword` from `src/src/routes.py`: normalize, reject
invalid keys, then cache lookup with fetch-and-store on a miss. -/
def fetchImageForKeyword (fetch : List Char → Option (List Char))
    (st : CacheState) (keyword : List Char) : ResolveTrace :=
  if validNorm (normalize keyword) then
    match dbGet st (normalize keyword) with
    | some cached =>
      if cached ≠ [] then ⟨⟨normalize keyword, some cached⟩, st, 0, 1, []⟩
      else resolveMiss fetch st (normalize keyword)
    | none => resolveMiss fetch st (normalize keyword)
  else ⟨⟨keyword, none⟩, st, 0, 0, []⟩

/-- Two resolutions of the same raw keyword in succession; total number of
external fetch calls. -/
def resolveTwiceFetchCalls (fetch : List Char → Option (List Char))
    (st : CacheState) (keyword : List Char) : Nat :=
  let t1 := fetchImageForKeyword fetch st keyword
  let t2 := fetchImageForKeyword fetch t1.state keyword
  t1.fetchCalls + t2.fetchCalls

/-! ### Legacy single-keyword entry point (`src/src/api.py`, `get_image`)

This endpoint performs no normalization: the raw user keyword is passed to
both the cache read and the cache write. -/

structure ApiTrace where
  response : Except Nat ImageResponse
  state : CacheState
  fetchCalls : Nat
  writes : List (List Char × List Char)

def apiMiss (fetch : List Char → Option (List Char)) (st : CacheState)
    (keyword : List Char) : ApiTrace :=
  match fetch keyword with
  | some url =>
    if url ≠ [] then
      ⟨Except.ok ⟨keyword, some url⟩, (dbSave st keyword url).2, 1,
        [(keyword, url)]⟩
    else ⟨Except.error 404, st, 1, []⟩
  | none => ⟨Except.error 404, st, 1, []⟩

/-- `get_image` from `src/src/api.py`: cache lookup and fetch-and-store on
the raw keyword, HTTP 404 when no URL was found. -/
def apiGetImage (fetch : List Char → Option (List Char)) (st : CacheState)
    (keyword : List Char) : ApiTrace :=
  match dbGet st keyword with
  | some cached =>
    if cached ≠ [] then ⟨Except.ok ⟨keyword, some cached⟩, st, 0, []⟩
    else apiMiss fetch st keyword
  | none => apiMiss fetch st keyword

/-! ### Batch coordinator (`src/src/routes.py`, `get_multiple_images`) -/

structure BatchTrace where
  results : List ImageResponse
  state : CacheState
  fetchCalls : Nat

def resolveAll (fetch : List Char → Option (List Char)) :
    CacheState → List (List Char) → BatchTrace
  | st, [] => ⟨[], st, 0⟩
  | st, k :: rest =>
    let t := fetchImageForKeyword fetch st k
    let b := resolveAll fetch t.state rest
    ⟨t.response :: b.results, b.state, t.fetchCalls + b.fetchCalls⟩

/-- `get_multiple_images`: reject an empty list (HTTP 422) and more than 50
keywords (HTTP 422); otherwise normalize every keyword and resolve each in
order. -/
def getMultipleImages (fetch : List Char → Option (List Char))
    (st : CacheState) (keywords : List (List Char)) : Except Nat BatchTrace :=
  if keywords = [] then Except.error 422
  else if 50 < keywords.length then Except.error 422
  else Except.ok (resolveAll fetch st (keywords.map normalize))

/-! ### Menu-item validation (`src/src/image_analyser.py`,
`ImageAnalyser.validate_menu_items`)

The items come from LLM-produced JSON, so field values are dynamically
typed.  Calling `.strip()` on a non-string value raises `AttributeError`,
modelled by `Except.error`. -/

inductive JVal where
  | jstr : List Char → JVal
  | jnum : Int → JVal
  | jnull : JVal
deriving DecidableEq

/-- Python truthiness of a JSON value. -/
def JVal.truthy : JVal → Bool
  | .jstr s => !s.isEmpty
  | .jnum n => n != 0
  | .jnull => false

/-- `.strip()` on a dynamic value: raises unless it is a string. -/
def jStrip : JVal → Except Unit (List Char)
  | .jstr s => Except.ok (pyStrip s)
  | _ => Except.error ()

/-- `.strip().lower()` on a dynamic value. -/
def jStripLower : JVal → Except Unit (List Char)
  | .jstr s => Except.ok (pyLower (pyStrip s))
  | _ => Except.error ()

/-- One raw list element: either not a dict (skipped), or a dict whose
relevant keys may each be absent (`none`) or hold any JSON value. -/
inductive MenuEntry where
  | nondict : MenuEntry
  | item (name keyword description price : Option JVal) : MenuEntry

structure CleanMenuItem where
  name : JVal
  keyword : JVal
  description : JVal
  price : JVal
deriving DecidableEq

def validateAux (seen : List (List Char × List Char)) :
    List MenuEntry → Except Unit (List CleanMenuItem)
  | [] => Except.ok []
  | MenuEntry.nondict :: rest => validateAux seen rest
  | MenuEntry.item name kw desc price :: rest =>
    let nameV := name.getD JVal.jnull
    let priceV := price.getD JVal.jnull
    if nameV.truthy && priceV.truthy then
      match jStripLower nameV with
      | Except.error e => Except.error e
      | Except.ok k1 =>
        match jStrip priceV with
        | Except.error e => Except.error e
        | Except.ok k2 =>
          if (k1, k2) ∈ seen then validateAux seen rest
          else
            match validateAux ((k1, k2) :: seen) rest with
            | Except.error e => Except.error e
            | Except.ok tail =>
              Except.ok (⟨nameV, kw.getD nameV,
                desc.getD (JVal.jstr "null".data), priceV⟩ :: tail)
    else validateAux seen rest

/-- `ImageAnalyser.validate_menu_items`. -/
def validateMenuItems (items : List MenuEntry) :
    Except Unit (List CleanMenuItem) :=
  validateAux [] items

/-! ### Lemmas about the cache store and the resolver -/

theorem dbSave_fst {st : CacheState} {k u : List Char}
    (hk : k ≠ []) (hu : u ≠ []) : (dbSave st k u).1 = true := by
  unfold dbSave
  rw [if_neg (fun h => h.elim hk hu)]

theorem dbGet_dbSave {st : CacheState} {k u K : List Char}
    (hk : k ≠ []) (hu : u ≠ []) (hK : pyLower K = pyLower k) :
    dbGet (dbSave st k u).2 K = some u := by
  have hKne : K ≠ [] := by
    intro h
    apply hk
    rw [h] at hK
    have h2 : pyLower k = [] := hK.symm.trans rfl
    exact List.map_eq_nil_iff.mp h2
  have hsave : (dbSave st k u).2 =
      ⟨(pyLower k, u) :: st.entries.eraseP (fun p => p.1 == pyLower k)⟩ := by
    unfold dbSave
    rw [if_neg (fun h => h.elim hk hu)]
  rw [hsave]
  unfold dbGet
  rw [if_neg hKne, hK]
  dsimp only
  rw [List.find?_cons_of_pos _ (by simp)]
  rfl

theorem resolveMiss_some_eq (fetch : List Char → Option (List Char))
    (st : CacheState) (n url : List Char)
    (hf : fetch n = some url) (hu : url ≠ []) :
    resolveMiss fetch st n =
      ⟨⟨n, some url⟩, (dbSave st n url).2, 1, 1, [(n, url)]⟩ := by
  unfold resolveMiss
  rw [hf]
  dsimp only
  rw [if_pos hu]

theorem resolveMiss_fetchCalls (fetch : List Char → Option (List Char))
    (st : CacheState) (n : List Char) :
    (resolveMiss fetch st n).fetchCalls = 1 := by
  unfold resolveMiss
  rcases fetch n with _ | url
  · rfl
  · dsimp only
    by_cases hu : url ≠ []
    · rw [if_pos hu]
    · rw [if_neg hu]

theorem resolveMiss_keyword (fetch : List Char → Option (List Char))
    (st : CacheState) (n : List Char) :
    (resolveMiss fetch st n).response.keyword = n := by
  unfold resolveMiss
  rcases fetch n with _ | url
  · rfl
  · dsimp only
    by_cases hu : url ≠ []
    · rw [if_pos hu]
    · rw [if_neg hu]

theorem resolveMiss_writes (fetch : List Char → Option (List Char))
    (st : CacheState) (n : List Char) :
    (resolveMiss fetch st n).writes.all (fun p => p.1 == n) = true := by
  unfold resolveMiss
  rcases fetch n with _ | url
  · rfl
  · dsimp only
    by_cases hu : url ≠ []
    · rw [if_pos hu]; simp
    · rw [if_neg hu]; rfl

theorem resolve_invalid (fetch : List Char → Option (List Char))
    (st : CacheState) (kw : List Char) (hv : ¬ validNorm (normalize kw)) :
    fetchImageForKeyword fetch st kw = ⟨⟨kw, none⟩, st, 0, 0, []⟩ := by
  unfold fetchImageForKeyword
  rw [if_neg hv]

theorem resolve_hit (fetch : List Char → Option (List Char))
    {st : CacheState} {kw cached : List Char} (hv : validNorm (normalize kw))
    (hg : dbGet st (normalize kw) = some cached) (hc : cached ≠ []) :
    fetchImageForKeyword fetch st kw =
      ⟨⟨normalize kw, some cached⟩, st, 0, 1, []⟩ := by
  unfold fetchImageForKeyword
  rw [if_pos hv, hg]
  dsimp only
  rw [if_pos hc]

theorem resolve_stale (fetch : List Char → Option (List Char))
    {st : CacheState} {kw cached : List Char} (hv : validNorm (normalize kw))
    (hg : dbGet st (normalize kw) = some cached) (hc : ¬ cached ≠ []) :
    fetchImageForKeyword fetch st kw = resolveMiss fetch st (normalize kw) := by
  unfold fetchImageForKeyword
  rw [if_pos hv, hg]
  dsimp only
  rw [if_neg hc]

theorem resolve_nocache (fetch : List Char → Option (List Char))
    {st : CacheState} {kw : List Char} (hv : validNorm (normalize kw))
    (hg : dbGet st (normalize kw) = none) :
    fetchImageForKeyword fetch st kw = resolveMiss fetch st (normalize kw) := by
  unfold fetchImageForKeyword
  rw [if_pos hv, hg]

theorem fetchCalls_le_one (fetch : List Char → Option (List Char))
    (st : CacheState) (kw : List Char) :
    (fetchImageForKeyword fetch st kw).fetchCalls ≤ 1 := by
  by_cases hv : validNorm (normalize kw)
  · rcases hg : dbGet st (normalize kw) with _ | cached
    · rw [resolve_nocache fetch hv hg, resolveMiss_fetchCalls]
    · by_cases hc : cached ≠ []
      · rw [resolve_hit fetch hv hg hc]
        exact Nat.zero_le 1
      · rw [resolve_stale fetch hv hg hc, resolveMiss_fetchCalls]
  · rw [resolve_invalid fetch st kw hv]
    exact Nat.zero_le 1

/-- The keyword field of a single resolution depends only on the input
keyword: the normalized form when it is valid, the raw keyword otherwise. -/
def resKeyword (k : List Char) : List Char :=
  if validNorm (normalize k) then normalize k else k

theorem response_keyword (fetch : List Char → Option (List Char))
    (st : CacheState) (k : List Char) :
    (fetchImageForKeyword fetch st k).response.keyword = resKeyword k := by
  unfold resKeyword
  by_cases hv : validNorm (normalize k)
  · rw [if_pos hv]
    rcases hg : dbGet st (normalize k) with _ | cached
    · rw [resolve_nocache fetch hv hg, resolveMiss_keyword]
    · by_cases hc : cached ≠ []
      · rw [resolve_hit fetch hv hg hc]
      · rw [resolve_stale fetch hv hg hc, resolveMiss_keyword]
  · rw [if_neg hv, resolve_invalid fetch st k hv]

/-- The keyword field the batch route produces for raw input `k`:
`get_multiple_images` first normalizes `k`, then `_fetch_image_for_keyword`
normalizes the result again.  Because a second normalization is a further
lower-casing (see `normalize_normalize`), this is not `normalize k` in
general: for `"™x"` it is `"tmx"` while `normalize "™x" = "TMx"`. -/
def batchSlotKeyword (k : List Char) : List Char := resKeyword (normalize k)

theorem resolve_writes_normalized (fetch : List Char → Option (List Char))
    (st : CacheState) (kw : List Char) :
    ((fetchImageForKeyword fetch st kw).writes).all
      (fun p => p.1 == normalize kw) = true := by
  by_cases hv : validNorm (normalize kw)
  · rcases hg : dbGet st (normalize kw) with _ | cached
    · rw [resolve_nocache fetch hv hg]
      exact resolveMiss_writes fetch st (normalize kw)
    · by_cases hc : cached ≠ []
      · rw [resolve_hit fetch hv hg hc]; rfl
      · rw [resolve_stale fetch hv hg hc]
        exact resolveMiss_writes fetch st (normalize kw)
  · rw [resolve_invalid fetch st kw hv]; rfl

theorem resolveTwice_le_one (fetch : List Char → Option (List Char))
    (st : CacheState) (kw : List Char) (u : List Char)
    (hf : fetch (normalize kw) = some u) (hu : u ≠ []) :
    resolveTwiceFetchCalls fetch st kw ≤ 1 := by
  show (fetchImageForKeyword fetch st kw).fetchCalls +
    (fetchImageForKeyword fetch (fetchImageForKeyword fetch st kw).state
      kw).fetchCalls ≤ 1
  by_cases hv : validNorm (normalize kw)
  · have hmiss := resolveMiss_some_eq fetch st (normalize kw) u hf hu
    have hsecond : fetchImageForKeyword fetch (dbSave st (normalize kw) u).2
        kw = ⟨⟨normalize kw, some u⟩, (dbSave st (normalize kw) u).2, 0, 1,
          []⟩ :=
      resolve_hit fetch hv (dbGet_dbSave hv.1 hu rfl) hu
    rcases hg : dbGet st (normalize kw) with _ | cached
    · rw [resolve_nocache fetch hv hg, hmiss]
      dsimp only
      rw [hsecond]
      simp
    · by_cases hc : cached ≠ []
      · rw [resolve_hit fetch hv hg hc]
        dsimp only
        rw [resolve_hit fetch hv hg hc]
        simp
      · rw [resolve_stale fetch hv hg hc, hmiss]
        dsimp only
        rw [hsecond]
        simp
  · rw [resolve_invalid fetch st kw hv]
    dsimp only
    rw [resolve_invalid fetch st kw hv]
    simp

/-! ### Lemmas about the batch coordinator -/

theorem resolveAll_map_keyword (fetch : List Char → Option (List Char))
    (ks : List (List Char)) : ∀ st : CacheState,
    (resolveAll fetch st ks).results.map (fun r => r.keyword) =
      ks.map resKeyword := by
  induction ks with
  | nil => intro st; rfl
  | cons k rest ih =>
    intro st
    simp only [resolveAll, List.map_cons]
    rw [response_keyword, ih]

theorem resolveAll_length (fetch : List Char → Option (List Char))
    (st : CacheState) (ks : List (List Char)) :
    (resolveAll fetch st ks).results.length = ks.length := by
  have h := congrArg List.length (resolveAll_map_keyword fetch ks st)
  simpa using h

theorem resolveAll_cons (fetch : List Char → Option (List Char))
    (st : CacheState) (k : List Char) (rest : List (List Char)) :
    resolveAll fetch st (k :: rest) =
      ⟨(fetchImageForKeyword fetch st k).response ::
        (resolveAll fetch (fetchImageForKeyword fetch st k).state rest).results,
       (resolveAll fetch (fetchImageForKeyword fetch st k).state rest).state,
       (fetchImageForKeyword fetch st k).fetchCalls +
        (resolveAll fetch (fetchImageForKeyword fetch st k).state rest).fetchCalls⟩ :=
  rfl

theorem resolveAll_append (fetch : List Char → Option (List Char))
    (l1 l2 : List (List Char)) : ∀ st : CacheState,
    resolveAll fetch st (l1 ++ l2) =
      ⟨(resolveAll fetch st l1).results ++
        (resolveAll fetch (resolveAll fetch st l1).state l2).results,
       (resolveAll fetch (resolveAll fetch st l1).state l2).state,
       (resolveAll fetch st l1).fetchCalls +
        (resolveAll fetch (resolveAll fetch st l1).state l2).fetchCalls⟩ := by
  induction l1 with
  | nil => intro st; simp [resolveAll]
  | cons k rest ih =>
    intro st
    rw [List.cons_append, resolveAll_cons, ih, resolveAll_cons]
    simp [Nat.add_assoc]

theorem resolveAll_middle (fetch : List Char → Option (List Char))
    (st : CacheState) (l1 l2 : List (List Char)) (k : List Char) :
    (resolveAll fetch st (l1 ++ k :: l2)).results =
      (resolveAll fetch st l1).results ++
      (fetchImageForKeyword fetch (resolveAll fetch st l1).state k).response ::
      (resolveAll fetch (fetchImageForKeyword fetch
        (resolveAll fetch st l1).state k).state l2).results := by
  rw [resolveAll_append fetch l1 (k :: l2) st]
  dsimp only
  rw [resolveAll_cons]

theorem getMultipleImages_ok (fetch : List Char → Option (List Char))
    (st : CacheState) (kws : List (List Char)) (h1 : kws ≠ [])
    (h2 : kws.length ≤ 50) :
    getMultipleImages fetch st kws =
      Except.ok (resolveAll fetch st (kws.map normalize)) := by
  unfold getMultipleImages
  rw [if_neg h1, if_neg (by omega)]

theorem getMultipleImages_err (fetch : List Char → Option (List Char))
    (st : CacheState) (kws : List (List Char))
    (h : kws = [] ∨ 50 < kws.length) :
    getMultipleImages fetch st kws = Except.error 422 := by
  rcases h with rfl | h
  · rfl
  · have hne : ¬ kws = [] := by
      intro he
      subst he
      simp at h
    unfold getMultipleImages
    rw [if_neg hne, if_pos h]

theorem map_resKeyword_normalize (l : List (List Char)) :
    List.map resKeyword (List.map normalize l) =
      List.map batchSlotKeyword l := by
  induction l with
  | nil => simp
  | cons a t ih =>
    simp only [List.map_cons, batchSlotKeyword]
    rw [ih]

theorem resolveAll_keywords_normalized (fetch : List Char → Option (List Char))
    (st : CacheState) (kws : List (List Char)) :
    (resolveAll fetch st (kws.map normalize)).results.map
      (fun r => r.keyword) = kws.map batchSlotKeyword := by
  have h := resolveAll_map_keyword fetch (kws.map normalize) st
  rw [h]
  exact map_resKeyword_normalize kws

/-! ### Claim theorems -/

/-- The composition of the six normalization steps in the order the code of
`src/src/text_utils.py` actually applies them: lower-case first, then the
substitution table, then NFKD decomposition, then combining-mark removal,
then the letter-or-space filter, then whitespace collapsing and trimming. -/
def actualOrderNormalize (s : List Char) : List Char :=
  pyStrip (squeeze (((nfkd (replaceUmlauts (pyLower s))).filter
    (fun c => !(isMn c))).filter (fun c => isAlphaChar c || isSpaceChar c)))

/-- C1, counterexample: on the input `"Ä"` the code's `normalize` yields
`"ae"` (the substitution table fires on the lower-cased precomposed `ä`),
while the spec's step order yields `"a"` (decomposition happens first, so the
table never sees an `ä`).  Hence `normalize` is not the composition of the
six steps in the order the claim states. -/
theorem c1_counterexample :
    normalize "Ä".data ≠ specOrderNormalize "Ä".data ∧
    normalize "Ä".data = "ae".data ∧ specOrderNormalize "Ä".data = "a".data := by
  refine ⟨by decide, by decide, by decide⟩

/-- C1, amended: `normalize` applies its steps in exactly this order:
lower-casing first, then the fixed substitution table `ä`→`ae`, `ö`→`oe`,
`ü`→`ue`, `ß`→`ss`, then Unicode canonical decomposition (NFKD), then removal
of all combining marks (category Mn), then removal of every character that is
not a letter or whitespace, then collapsing whitespace runs to single spaces
and trimming; for every input string the result equals the composition of
these steps applied in that order. -/
theorem c1_normalize_step_order :
    ∀ s : List Char, normalize s = actualOrderNormalize s :=
  fun _ => rfl

/-- C2, counterexample: when the external fetcher fails (returns no URL),
nothing is cached, so resolving the same raw keyword twice triggers the
external collaborator twice — more than the claimed "at most once in
total". -/
theorem c2_counterexample :
    resolveTwiceFetchCalls (fun _ => none) ⟨[]⟩ "pizza".data = 2 ∧
    ¬ resolveTwiceFetchCalls (fun _ => none) ⟨[]⟩ "pizza".data ≤ 1 := by
  refine ⟨by decide, by decide⟩

/-- C2, amended: each single resolve makes at most one fetch attempt with no
retry; and provided the fetcher yields a non-empty URL for the normalized
keyword (so that the first call can fetch and store it), resolving the same
raw keyword twice in succession triggers the external collaborator at most
once in total. -/
theorem c2_at_most_one_fetch :
    (∀ (fetch : List Char → Option (List Char)) (st : CacheState)
      (kw : List Char), (fetchImageForKeyword fetch st kw).fetchCalls ≤ 1) ∧
    (∀ (fetch : List Char → Option (List Char)) (st : CacheState)
      (kw u : List Char), fetch (normalize kw) = some u → u ≠ [] →
      resolveTwiceFetchCalls fetch st kw ≤ 1) :=
  ⟨fetchCalls_le_one, resolveTwice_le_one⟩

/-- C2, witness: with a fetcher that always returns the URL `"u"`, resolving
`"pizza"` twice from an empty cache fetches at most once. -/
theorem c2_witness :
    resolveTwiceFetchCalls (fun _ => some ['u']) ⟨[]⟩ "pizza".data ≤ 1 :=
  c2_at_most_one_fetch.2 (fun _ => some ['u']) ⟨[]⟩ "pizza".data ['u'] rfl
    (by decide)

/-- C3, counterexample: the legacy entry point `get_image` of
`src/src/api.py` never normalizes; on the keyword `"Pizza!"` it persists the
raw keyword itself, which differs from its normalized form `"pizza"`. -/
theorem c3_counterexample :
    (apiGetImage (fun _ => some ['u']) ⟨[]⟩ "Pizza!".data).writes =
      [("Pizza!".data, ['u'])] ∧
    "Pizza!".data ≠ normalize "Pizza!".data := by
  refine ⟨by decide, by decide⟩

/-- C3, amended: in the resolver path of `src/src/routes.py` every cache
write uses the Normalizer's output: whatever the fetcher and the prior cache
state, each key passed to the store by `_fetch_image_for_keyword` equals
`normalize` of the keyword being resolved.  The legacy entry points
(`src/app.py`, `src/src/api.py`) instead pass the raw keyword, which the
store merely lower-cases. -/
theorem c3_resolver_writes_normalized :
    ∀ (fetch : List Char → Option (List Char)) (st : CacheState)
      (kw : List Char),
    ((fetchImageForKeyword fetch st kw).writes).all
      (fun p => p.1 == normalize kw) = true :=
  resolve_writes_normalized

/-- C4, counterexample: the letter filter of `text_utils.normalize` keeps
every Unicode letter, so the CJK input `"寿司"` normalizes to itself — a
string of letters that are not lowercase letters (they are caseless) —
refuting "contains only lowercase letters and single spaces"; moreover the
output can even contain uppercase letters, since compatibility
decompositions run after lower-casing: `normalize "™" = "TM"`. -/
theorem c4_counterexample :
    specCleanKey (normalize "寿司".data) = false ∧
    normalize "寿司".data = "寿司".data ∧
    specCleanKey (normalize "™".data) = false ∧
    normalize "™".data = "TM".data := by
  refine ⟨by decide, by decide, by decide, by decide⟩

/-- C4, amended: for every input string, `normalize` returns only letters and
single spaces — every character is either a Unicode letter (possibly caseless
such as CJK, possibly uppercase emitted by a compatibility decomposition such
as `™` → `TM`) or the space character — with no leading space, no trailing
space, and no two consecutive spaces. -/
theorem c4_clean_key : ∀ s : List Char, isCleanKey (normalize s) = true :=
  normalize_isCleanKey

/-- C5, counterexample: `normalize` is not idempotent.  Lower-casing runs
before NFKD, and the compatibility decomposition of the caseless `™` emits
the uppercase letters `TM`, which a second application lower-cases:
`normalize "™" = "TM"` but `normalize (normalize "™") = "tm"`. -/
theorem c5_counterexample :
    normalize (normalize "™".data) ≠ normalize "™".data ∧
    normalize "™".data = "TM".data ∧
    normalize (normalize "™".data) = "tm".data := by
  refine ⟨by decide, by decide, by decide⟩

/-- C5, amended: `normalize` is not idempotent in general, because
compatibility decompositions can emit uppercase letters after lower-casing
has already run; a second application is exactly a lower-casing of the first
result — `normalize (normalize s) = lower (normalize s)` — and applying
`normalize` twice reaches a fixed point:
`normalize (normalize (normalize s)) = normalize (normalize s)`.
(In particular `normalize` is idempotent on every input whose normalized form
contains no uppercase letter.) -/
theorem c5_second_application :
    (∀ s : List Char, normalize (normalize s) = pyLower (normalize s)) ∧
    (∀ s : List Char,
      normalize (normalize (normalize s)) = normalize (normalize s)) :=
  ⟨normalize_normalize, normalize_third⟩

/-- C6: for every raw keyword whose normalized form is empty or shorter than
2 or longer than 100 characters, the resolver returns the raw keyword with an
absent URL and performs no cache read, no cache write and no fetch: the trace
is exactly the input state with zero reads, zero fetch calls and no writes. -/
theorem c6_invalid_short_circuit :
    ∀ (fetch : List Char → Option (List Char)) (st : CacheState)
      (kw : List Char),
    (normalize kw = [] ∨ (normalize kw).length < 2 ∨
      100 < (normalize kw).length) →
    fetchImageForKeyword fetch st kw = ⟨⟨kw, none⟩, st, 0, 0, []⟩ := by
  intro fetch st kw h
  apply resolve_invalid
  rintro ⟨h1, h2, h3⟩
  rcases h with h | h | h
  · exact h1 h
  · omega
  · omega

/-- C6, witness: the keyword `"x"` normalizes to the single character `"x"`,
whose length 1 is below the bound 2; the resolver short-circuits. -/
theorem c6_witness :
    fetchImageForKeyword (fun _ => some ['u']) ⟨[]⟩ ['x'] =
      ⟨⟨['x'], none⟩, ⟨[]⟩, 0, 0, []⟩ :=
  c6_invalid_short_circuit (fun _ => some ['u']) ⟨[]⟩ ['x'] (by decide)

/-- C7: `get_multiple_images` rejects an empty keyword list and a list of
more than 50 keywords with HTTP 422 before resolving anything; every list of
1 to 50 keywords yields (for any fetcher behaviour, including one that fails
on every keyword) a result list of the same length whose keyword fields line
up with the inputs slot by slot (each equals `batchSlotKeyword` of that
input: its normalized form re-normalized by the per-keyword resolver); and
each slot's response is produced by that slot's own resolution, independent
of how the remaining items fare. -/
theorem c7_batch_contract :
    ∀ (fetch : List Char → Option (List Char)) (st : CacheState)
      (kws : List (List Char)),
    ((kws = [] ∨ 50 < kws.length) →
      getMultipleImages fetch st kws = Except.error 422) ∧
    (kws ≠ [] → kws.length ≤ 50 →
      getMultipleImages fetch st kws =
        Except.ok (resolveAll fetch st (kws.map normalize)) ∧
      (resolveAll fetch st (kws.map normalize)).results.length = kws.length ∧
      (resolveAll fetch st (kws.map normalize)).results.map
        (fun r => r.keyword) = kws.map batchSlotKeyword) ∧
    (∀ (l1 l2 : List (List Char)) (k : List Char),
      (resolveAll fetch st (l1 ++ k :: l2)).results =
        (resolveAll fetch st l1).results ++
        (fetchImageForKeyword fetch (resolveAll fetch st l1).state
          k).response ::
        (resolveAll fetch (fetchImageForKeyword fetch
          (resolveAll fetch st l1).state k).state l2).results) := by
  intro fetch st kws
  refine ⟨getMultipleImages_err fetch st kws, fun h1 h2 => ?_,
    fun l1 l2 k => resolveAll_middle fetch st l1 l2 k⟩
  refine ⟨getMultipleImages_ok fetch st kws h1 h2, ?_,
    resolveAll_keywords_normalized fetch st kws⟩
  rw [resolveAll_length]
  simp

/-- C7, witness: the one-element batch `["ab"]` is accepted and resolved even
though the fetcher fails on every keyword. -/
theorem c7_witness :
    getMultipleImages (fun _ => none) ⟨[]⟩ [['a', 'b']] =
      Except.ok (resolveAll (fun _ => none) ⟨[]⟩
        ([['a', 'b']].map normalize)) ∧
    (resolveAll (fun _ => none) ⟨[]⟩
      ([['a', 'b']].map normalize)).results.length = [['a', 'b']].length ∧
    (resolveAll (fun _ => none) ⟨[]⟩ ([['a', 'b']].map normalize)).results.map
      (fun r => r.keyword) = [['a', 'b']].map batchSlotKeyword :=
  (c7_batch_contract (fun _ => none) ⟨[]⟩ [['a', 'b']]).2.1 (by decide)
    (by decide)

/-- C8: for every non-empty key `k` and non-empty URL `u`, `put(k, u)`
returns true and a subsequent `get(K)` returns `u` for every `K` that agrees
with `k` up to letter case (both operations lower-case the key before
use). -/
theorem c8_cache_roundtrip :
    ∀ (st : CacheState) (k u K : List Char), k ≠ [] → u ≠ [] →
    pyLower K = pyLower k →
    (dbSave st k u).1 = true ∧ dbGet (dbSave st k u).2 K = some u :=
  fun _ _ _ _ hk hu hK => ⟨dbSave_fst hk hu, dbGet_dbSave hk hu hK⟩

/-- C8, witness: saving `("pizza", "u")` into the empty cache succeeds and
`get "PIZZA"` returns `"u"`. -/
theorem c8_witness :
    (dbSave ⟨[]⟩ "pizza".data ['u']).1 = true ∧
    dbGet (dbSave ⟨[]⟩ "pizza".data ['u']).2 "PIZZA".data = some ['u'] :=
  c8_cache_roundtrip ⟨[]⟩ "pizza".data ['u'] "PIZZA".data (by decide)
    (by decide) (by decide)

/-- C9: `validate_menu_items` is not total: an item whose `price` is a JSON
number (as LLM-produced JSON may well contain) passes the presence check but
crashes on `price.strip()` with an `AttributeError` instead of being filtered
out — contradicting both the spec's "total function, never raises" and the
function's own docstring promise to remove invalid entries. -/
theorem c9_nonstring_price_raises :
    validateMenuItems [MenuEntry.item (some (JVal.jstr "Soup".data)) none none
      (some (JVal.jnum 5))] = Except.error () :=
  rfl

/-- C10: accented and umlaut inputs fold to their ASCII transliterations:
`normalize "Müller" = "mueller"` and `normalize "café" = "cafe"`. -/
theorem c10_accent_folding :
    normalize "Müller".data = "mueller".data ∧
    normalize "café".data = "cafe".data := by
  refine ⟨by decide, by decide⟩

end Dish
